import Mathlib

/-!
Verification of the text-analysis core of `src/Laba.py`.

The analysis strategies are embedded over `List Char` (a text is its
character sequence).  The morphological analyzer (pymorphy2) is an
external capability; it is modelled as an arbitrary function
`morph : List Char → List Char` sending a surface word to its lemma.
Python dictionaries are modelled as association lists with insertion-order
semantics (assignment to an existing key keeps its position, a new key is
appended at the end), matching CPython dict behaviour.
-/

set_option autoImplicit false

/-- A word character, the `\w` class used by `re.findall(r'\b\w+\b', ...)`:
letters, digits, and underscore. -/
def wordChar (c : Char) : Bool := c.isAlphanum || c == '_'

/-- `str.lower` applied to a character sequence. -/
def lowerStr (s : List Char) : List Char := s.map Char.toLower

/-- Accumulator-based extraction of maximal word-character runs.
`acc` is the (reversed) run currently being read. -/
def wordRunsAux : List Char → List Char → List (List Char)
  | [], acc => if acc.isEmpty then [] else [acc.reverse]
  | c :: cs, acc =>
    if wordChar c then wordRunsAux cs (c :: acc)
    else if acc.isEmpty then wordRunsAux cs [] else acc.reverse :: wordRunsAux cs []

/-- `re.findall(r'\b\w+\b', text.lower())`: the maximal word-character runs
of the lowercased text, in text order. -/
def findWords (text : List Char) : List (List Char) :=
  wordRunsAux (lowerStr text) []

/-- First-occurrence deduplication with an explicit `seen` accumulator. -/
def dedupFirstAux {α : Type} [DecidableEq α] : List α → List α → List α
  | [], _ => []
  | x :: xs, seen =>
    if x ∈ seen then dedupFirstAux xs seen else x :: dedupFirstAux xs (x :: seen)

/-- Distinct elements of a list in first-occurrence order (the key order of
`collections.Counter` / a Python `set` built by insertion). -/
def dedupFirst {α : Type} [DecidableEq α] (l : List α) : List α :=
  dedupFirstAux l []

/-- `collections.Counter(l)`: each distinct element paired with its
multiplicity, keys in first-occurrence order. -/
def counter {α : Type} [DecidableEq α] (l : List α) : List (α × Nat) :=
  (dedupFirst l).map (fun x => (x, l.count x))

/-- `AbsoluteFrequencyStrategy.analyze`: the counter of the tokenized text. -/
def AbsoluteFrequencyStrategy.analyze (text : List Char) : List (List Char × Nat) :=
  counter (findWords text)

/-- The dict comprehension `{word: (count / total_words) * 100 ...}` of
`RelativeFrequencyStrategy.analyze`, carried out over rationals.  Python
raises `ZeroDivisionError` if the division is ever executed with
`total = 0`; that is modelled with `Except`. -/
def relFreqEntries (total : Nat) : List (List Char × Nat) → Except String (List (List Char × Rat))
  | [] => .ok []
  | (w, c) :: rest =>
    if total = 0 then .error "ZeroDivisionError"
    else
      match relFreqEntries total rest with
      | .error e => .error e
      | .ok rs => .ok ((w, ((c : Rat) / (total : Rat)) * 100) :: rs)

/-- `RelativeFrequencyStrategy.analyze`: percentage of each distinct token. -/
def RelativeFrequencyStrategy.analyze (text : List Char) :
    Except String (List (List Char × Rat)) :=
  relFreqEntries (findWords text).length (counter (findWords text))

/-- A sentence delimiter of `re.split(r'[.!?]', text)`. -/
def sentenceDelim (c : Char) : Bool := c == '.' || c == '!' || c == '?'

/-- `re.split(r'[.!?]', text)`: the pieces between delimiters, empties kept. -/
def splitOnDelims : List Char → List (List Char)
  | [] => [[]]
  | c :: cs =>
    if sentenceDelim c then [] :: splitOnDelims cs
    else
      match splitOnDelims cs with
      | [] => [[c]]
      | p :: ps => (c :: p) :: ps

/-- `str.strip()`: remove leading and trailing whitespace. -/
def stripStr (s : List Char) : List Char :=
  ((s.dropWhile Char.isWhitespace).reverse.dropWhile Char.isWhitespace).reverse

/-- `SentenceCountStrategy.analyze`: the number of split pieces whose
stripped content is non-empty. -/
def SentenceCountStrategy.analyze (text : List Char) : Nat :=
  ((splitOnDelims text).filter (fun s => !(stripStr s).isEmpty)).length

/-- `w[len(lem):]`: the surface word with a prefix of the lemma's length
removed. -/
def residualSuffix (lem w : List Char) : List Char := w.drop lem.length

/-- Python dict assignment `d[k] = v`: update in place if the key exists
(keeping its position), otherwise append the new entry at the end. -/
def dictSet {α β : Type} [DecidableEq α] (k : α) (v : β) : List (α × β) → List (α × β)
  | [] => [(k, v)]
  | (k', v') :: rest => if k' = k then (k, v) :: rest else (k', v') :: dictSet k v rest

/-- Python `d[k].append(x)` on a dict of lists: append `x` to the value at
key `k` (a no-op when the key is absent; in the analyzer the key is always
present when this is called). -/
def dictAppendVal {α β : Type} [DecidableEq α] (k : α) (x : β) :
    List (α × List β) → List (α × List β)
  | [] => []
  | (k', v) :: rest =>
    if k' = k then (k', v ++ [x]) :: rest else (k', v) :: dictAppendVal k x rest

/-- Python dict lookup `d[k]` as an option. -/
def dictGet {α β : Type} [DecidableEq α] (k : α) : List (α × β) → Option β
  | [] => none
  | (k', v) :: rest => if k' = k then some v else dictGet k rest

/-- The body of the outer loop of `InflectionHighlightStrategy.analyze` for
one seed word whose lemma is `lem`: re-initialize `inflections[lem]` to the
empty list, then scan all tokens in order, appending the residual suffix of
each token whose lemma equals `lem`. -/
def processSeed (morph : List Char → List Char) (words : List (List Char))
    (lem : List Char) (d : List (List Char × List (List Char))) :
    List (List Char × List (List Char)) :=
  words.foldl
    (fun acc w => if morph w = lem then dictAppendVal lem (residualSuffix lem w) acc else acc)
    (dictSet lem [] d)

/-- `InflectionHighlightStrategy.analyze`: tokenize the lowercased text once,
then process each seed word in order against the token list, starting from
the empty dict. -/
def InflectionHighlightStrategy.analyze (morph : List Char → List Char)
    (text : List Char) (selected_words : List (List Char)) :
    List (List Char × List (List Char)) :=
  selected_words.foldl (fun d word => processSeed morph (findWords text) (morph word) d) []

/-- The inner matching loop of `InflectionHighlightStrategy.analyze`, viewed
as a single pass: the residual suffixes of the tokens whose lemma is `lem`,
in text order. -/
def suffixScan (morph : List Char → List Char) (words : List (List Char))
    (lem : List Char) : List (List Char) :=
  words.filterMap (fun w => if morph w = lem then some (residualSuffix lem w) else none)

/-- `UniqueWordsCountStrategy.analyze`: `len(set(words))`. -/
def UniqueWordsCountStrategy.analyze (text : List Char) : Nat :=
  (dedupFirst (findWords text)).length

/-- The typed result of one analysis run. -/
inductive AnalysisResult where
  | counts : List (List Char × Nat) → AnalysisResult
  | percents : Except String (List (List Char × Rat)) → AnalysisResult
  | num : Nat → AnalysisResult
  | groups : List (List Char × List (List Char)) → AnalysisResult

/-- The five strategy variants. -/
inductive StrategyKind where
  | absoluteFrequency
  | relativeFrequency
  | sentenceCount
  | inflectionHighlight
  | uniqueWordsCount
deriving DecidableEq

/-- Dispatch of a strategy variant to its `analyze` behaviour; the
inflection variant consumes the extra seed-word argument. -/
def StrategyKind.analyze (morph : List Char → List Char) :
    StrategyKind → List Char → List (List Char) → AnalysisResult
  | .absoluteFrequency, text, _ => .counts (AbsoluteFrequencyStrategy.analyze text)
  | .relativeFrequency, text, _ => .percents (RelativeFrequencyStrategy.analyze text)
  | .sentenceCount, text, _ => .num (SentenceCountStrategy.analyze text)
  | .inflectionHighlight, text, extra => .groups (InflectionHighlightStrategy.analyze morph text extra)
  | .uniqueWordsCount, text, _ => .num (UniqueWordsCountStrategy.analyze text)

/-- `TextAnalyzer`: holds the currently selected strategy. -/
structure TextAnalyzer where
  strat : StrategyKind

/-- `TextAnalyzer.set_strategy`. -/
def TextAnalyzer.set_strategy (a : TextAnalyzer) (s : StrategyKind) : TextAnalyzer :=
  { a with strat := s }

/-- `TextAnalyzer.analyze(self, text, *args)`: forward to the selected
strategy's `analyze`. -/
def TextAnalyzer.analyze (a : TextAnalyzer) (morph : List Char → List Char)
    (text : List Char) (args : List (List Char)) : AnalysisResult :=
  a.strat.analyze morph text args

/-- `selected_text.lower()` applied to one seed word, as done by the host
(`TextAnalysisApp.show_inflections`) before calling the core. -/
def lowerWord (w : List Char) : List Char := w.map Char.toLower

/-! ### Association-list (Python dict) lemmas -/

theorem dictGet_dictSet_self {α β : Type} [DecidableEq α] (k : α) (v : β)
    (d : List (α × β)) : dictGet k (dictSet k v d) = some v := by
  induction d with
  | nil => simp [dictSet, dictGet]
  | cons e rest ih =>
    obtain ⟨k', v'⟩ := e
    by_cases h : k' = k <;> simp [dictSet, dictGet, h, ih]

theorem dictGet_dictSet_ne {α β : Type} [DecidableEq α] {k k' : α} (v : β)
    (d : List (α × β)) (h : k' ≠ k) : dictGet k' (dictSet k v d) = dictGet k' d := by
  induction d with
  | nil => simp [dictSet, dictGet, Ne.symm h]
  | cons e rest ih =>
    obtain ⟨k'', v''⟩ := e
    by_cases h2 : k'' = k
    · subst h2
      simp [dictSet, dictGet, Ne.symm h]
    · by_cases h3 : k'' = k' <;> simp [dictSet, dictGet, h, h2, h3, ih]

theorem dictGet_dictAppendVal_self {α β : Type} [DecidableEq α] (k : α) (x : β)
    (d : List (α × List β)) :
    dictGet k (dictAppendVal k x d) = (dictGet k d).map (fun v => v ++ [x]) := by
  induction d with
  | nil => simp [dictAppendVal, dictGet]
  | cons e rest ih =>
    obtain ⟨k', v⟩ := e
    by_cases h : k' = k <;> simp [dictAppendVal, dictGet, h, ih]

theorem dictGet_dictAppendVal_ne {α β : Type} [DecidableEq α] {k k' : α} (x : β)
    (d : List (α × List β)) (h : k' ≠ k) :
    dictGet k' (dictAppendVal k x d) = dictGet k' d := by
  induction d with
  | nil => simp [dictAppendVal, dictGet]
  | cons e rest ih =>
    obtain ⟨k'', v⟩ := e
    by_cases h2 : k'' = k
    · subst h2
      simp [dictAppendVal, dictGet, Ne.symm h]
    · by_cases h3 : k'' = k' <;> simp [dictAppendVal, dictGet, h, h2, h3, ih]

theorem keys_dictAppendVal {α β : Type} [DecidableEq α] (k : α) (x : β)
    (d : List (α × List β)) :
    (dictAppendVal k x d).map Prod.fst = d.map Prod.fst := by
  induction d with
  | nil => simp [dictAppendVal]
  | cons e rest ih =>
    obtain ⟨k', v⟩ := e
    by_cases h : k' = k <;> simp [dictAppendVal, h, ih]

theorem keys_dictSet {α β : Type} [DecidableEq α] (k : α) (v : β) (d : List (α × β)) :
    (dictSet k v d).map Prod.fst =
      if k ∈ d.map Prod.fst then d.map Prod.fst else d.map Prod.fst ++ [k] := by
  induction d with
  | nil => simp [dictSet]
  | cons e rest ih =>
    obtain ⟨k', v'⟩ := e
    by_cases h : k' = k
    · subst h
      simp [dictSet]
    · by_cases h2 : k ∈ rest.map Prod.fst <;>
        simp [dictSet, h, ih, h2, Ne.symm h]

theorem keys_dictSet_nodup {α β : Type} [DecidableEq α] (k : α) (v : β)
    (d : List (α × β)) (h : (d.map Prod.fst).Nodup) :
    ((dictSet k v d).map Prod.fst).Nodup := by
  rw [keys_dictSet]
  by_cases h2 : k ∈ d.map Prod.fst
  · simpa [h2] using h
  · rw [if_neg h2, List.nodup_append]
    refine ⟨h, List.nodup_singleton _, fun a ha hb => ?_⟩
    rw [List.mem_singleton] at hb
    subst hb
    exact h2 ha

theorem mem_keys_of_dictGet {α β : Type} [DecidableEq α] {k : α} {v : β}
    {d : List (α × β)} (h : dictGet k d = some v) : k ∈ d.map Prod.fst := by
  induction d with
  | nil => simp [dictGet] at h
  | cons e rest ih =>
    obtain ⟨k', v'⟩ := e
    by_cases h2 : k' = k
    · simp [h2]
    · rw [dictGet, if_neg h2] at h
      rw [List.map_cons, List.mem_cons]
      exact Or.inr (ih h)

theorem dictGet_isSome_of_mem_keys {α β : Type} [DecidableEq α] {k : α}
    {d : List (α × β)} (h : k ∈ d.map Prod.fst) : (dictGet k d).isSome := by
  induction d with
  | nil => simp at h
  | cons e rest ih =>
    obtain ⟨k', v'⟩ := e
    by_cases h2 : k' = k
    · simp [dictGet, h2]
    · rw [List.map_cons, List.mem_cons] at h
      rcases h with h | h
      · exact absurd h.symm h2
      · simpa [dictGet, h2] using ih h

theorem dictGet_of_mem_nodup {α β : Type} [DecidableEq α] {k : α} {v : β}
    {d : List (α × β)} (hd : (d.map Prod.fst).Nodup) (h : (k, v) ∈ d) :
    dictGet k d = some v := by
  induction d with
  | nil => simp at h
  | cons e rest ih =>
    obtain ⟨k', v'⟩ := e
    rw [List.map_cons, List.nodup_cons] at hd
    rcases List.mem_cons.1 h with h1 | h1
    · obtain ⟨rfl, rfl⟩ := Prod.mk.injEq .. ▸ h1
      simp [dictGet]
    · have hk : k' ≠ k := by
        rintro rfl
        exact hd.1 (List.mem_map.2 ⟨(k', v), h1, rfl⟩)
      rw [dictGet, if_neg hk]
      exact ih hd.2 h1

/-! ### Inner-loop lemmas for `InflectionHighlightStrategy.analyze` -/

theorem dictGet_foldl_scan (morph : List Char → List Char) (lem : List Char) :
    ∀ (words : List (List Char)) (d : List (List Char × List (List Char)))
      (acc : List (List Char)), dictGet lem d = some acc →
      dictGet lem (words.foldl
        (fun a w => if morph w = lem then dictAppendVal lem (residualSuffix lem w) a else a) d)
        = some (acc ++ suffixScan morph words lem) := by
  intro words
  induction words with
  | nil =>
    intro d acc h
    simpa [suffixScan] using h
  | cons w ws ih =>
    intro d acc h
    by_cases hm : morph w = lem
    · rw [List.foldl_cons, if_pos hm]
      have h2 : dictGet lem (dictAppendVal lem (residualSuffix lem w) d)
          = some (acc ++ [residualSuffix lem w]) := by
        rw [dictGet_dictAppendVal_self, h]
        rfl
      rw [ih _ _ h2]
      simp [suffixScan, List.filterMap_cons, hm]
    · rw [List.foldl_cons, if_neg hm, ih _ _ h]
      simp [suffixScan, List.filterMap_cons, hm]

theorem dictGet_foldl_ne (morph : List Char → List Char) {lem k : List Char}
    (hk : k ≠ lem) :
    ∀ (words : List (List Char)) (d : List (List Char × List (List Char))),
      dictGet k (words.foldl
        (fun a w => if morph w = lem then dictAppendVal lem (residualSuffix lem w) a else a) d)
        = dictGet k d := by
  intro words
  induction words with
  | nil => intro d; rfl
  | cons w ws ih =>
    intro d
    by_cases hm : morph w = lem
    · rw [List.foldl_cons, if_pos hm, ih, dictGet_dictAppendVal_ne _ _ hk]
    · rw [List.foldl_cons, if_neg hm, ih]

theorem dictGet_processSeed_self (morph : List Char → List Char)
    (words : List (List Char)) (lem : List Char)
    (d : List (List Char × List (List Char))) :
    dictGet lem (processSeed morph words lem d) = some (suffixScan morph words lem) := by
  rw [processSeed]
  exact dictGet_foldl_scan morph lem words _ [] (dictGet_dictSet_self lem [] d)

theorem dictGet_processSeed_ne (morph : List Char → List Char)
    (words : List (List Char)) {lem k : List Char} (hk : k ≠ lem)
    (d : List (List Char × List (List Char))) :
    dictGet k (processSeed morph words lem d) = dictGet k d := by
  rw [processSeed, dictGet_foldl_ne morph hk, dictGet_dictSet_ne _ _ hk]

theorem keys_foldl_append (morph : List Char → List Char) (lem : List Char) :
    ∀ (words : List (List Char)) (d : List (List Char × List (List Char))),
      (words.foldl
        (fun a w => if morph w = lem then dictAppendVal lem (residualSuffix lem w) a else a)
        d).map Prod.fst = d.map Prod.fst := by
  intro words
  induction words with
  | nil => intro d; rfl
  | cons w ws ih =>
    intro d
    by_cases hm : morph w = lem
    · rw [List.foldl_cons, if_pos hm, ih, keys_dictAppendVal]
    · rw [List.foldl_cons, if_neg hm, ih]

theorem keys_processSeed (morph : List Char → List Char)
    (words : List (List Char)) (lem : List Char)
    (d : List (List Char × List (List Char))) :
    (processSeed morph words lem d).map Prod.fst = (dictSet lem ([] : List (List Char)) d).map Prod.fst := by
  rw [processSeed, keys_foldl_append]

/-! ### Outer-loop lemmas for `InflectionHighlightStrategy.analyze` -/

theorem dictGet_seedFold_unchanged (morph : List Char → List Char)
    (words : List (List Char)) {k : List Char} :
    ∀ (seeds : List (List Char)) (d : List (List Char × List (List Char))),
      (∀ s ∈ seeds, morph s ≠ k) →
      dictGet k (seeds.foldl (fun d' word => processSeed morph words (morph word) d') d)
        = dictGet k d := by
  intro seeds
  induction seeds with
  | nil => intro d _; rfl
  | cons s rest ih =>
    intro d h
    rw [List.foldl_cons, ih _ (fun s' hs' => h s' (List.mem_cons_of_mem s hs')),
      dictGet_processSeed_ne morph words (fun he => h s (List.mem_cons_self s rest) he.symm)]

theorem dictGet_seedFold_scan (morph : List Char → List Char)
    (words : List (List Char)) {k : List Char} :
    ∀ (seeds : List (List Char)) (d : List (List Char × List (List Char))),
      (∃ s ∈ seeds, morph s = k) →
      dictGet k (seeds.foldl (fun d' word => processSeed morph words (morph word) d') d)
        = some (suffixScan morph words k) := by
  intro seeds
  induction seeds with
  | nil =>
    intro d h
    simp at h
  | cons s rest ih =>
    intro d h
    rw [List.foldl_cons]
    by_cases h2 : ∃ s' ∈ rest, morph s' = k
    · exact ih _ h2
    · push_neg at h2
      have hs : morph s = k := by
        rcases h with ⟨s', hs', he⟩
        rcases List.mem_cons.1 hs' with rfl | hmem
        · exact he
        · exact absurd he (h2 s' hmem)
      rw [dictGet_seedFold_unchanged morph words rest _ h2, ← hs,
        dictGet_processSeed_self]

theorem dictGet_inflAnalyze (morph : List Char → List Char) (text : List Char)
    {seeds : List (List Char)} {s : List Char} (hs : s ∈ seeds) :
    dictGet (morph s) (InflectionHighlightStrategy.analyze morph text seeds)
      = some (suffixScan morph (findWords text) (morph s)) := by
  rw [InflectionHighlightStrategy.analyze]
  exact dictGet_seedFold_scan morph (findWords text) seeds [] ⟨s, hs, rfl⟩

theorem dictGet_inflAnalyze_none (morph : List Char → List Char) (text : List Char)
    {seeds : List (List Char)} {k : List Char} (hk : ∀ s ∈ seeds, morph s ≠ k) :
    dictGet k (InflectionHighlightStrategy.analyze morph text seeds) = none := by
  rw [InflectionHighlightStrategy.analyze]
  rw [dictGet_seedFold_unchanged morph (findWords text) seeds [] hk]
  rfl

theorem keys_seedFold_nodup (morph : List Char → List Char)
    (words : List (List Char)) :
    ∀ (seeds : List (List Char)) (d : List (List Char × List (List Char))),
      (d.map Prod.fst).Nodup →
      ((seeds.foldl (fun d' word => processSeed morph words (morph word) d') d).map
        Prod.fst).Nodup := by
  intro seeds
  induction seeds with
  | nil => intro d h; exact h
  | cons s rest ih =>
    intro d h
    rw [List.foldl_cons]
    refine ih _ ?_
    rw [keys_processSeed]
    exact keys_dictSet_nodup _ _ _ h

theorem inflAnalyze_keys_nodup (morph : List Char → List Char) (text : List Char)
    (seeds : List (List Char)) :
    ((InflectionHighlightStrategy.analyze morph text seeds).map Prod.fst).Nodup := by
  rw [InflectionHighlightStrategy.analyze]
  exact keys_seedFold_nodup morph (findWords text) seeds [] (by simp)

theorem mem_keys_inflAnalyze (morph : List Char → List Char) (text : List Char)
    {seeds : List (List Char)} {k : List Char}
    (h : k ∈ (InflectionHighlightStrategy.analyze morph text seeds).map Prod.fst) :
    ∃ s ∈ seeds, morph s = k := by
  by_contra hc
  push_neg at hc
  have h2 := dictGet_isSome_of_mem_keys h
  rw [dictGet_inflAnalyze_none morph text hc] at h2
  simp at h2

/-! ### Deduplication and counter lemmas -/

theorem mem_dedupFirstAux {α : Type} [DecidableEq α] (x : α) :
    ∀ (l seen : List α), x ∈ dedupFirstAux l seen ↔ x ∈ l ∧ x ∉ seen := by
  intro l
  induction l with
  | nil => intro seen; simp [dedupFirstAux]
  | cons y ys ih =>
    intro seen
    by_cases h : y ∈ seen
    · rw [dedupFirstAux, if_pos h, ih]
      constructor
      · rintro ⟨hx, hxs⟩
        exact ⟨List.mem_cons_of_mem _ hx, hxs⟩
      · rintro ⟨hx, hxs⟩
        rcases List.mem_cons.1 hx with rfl | hx
        · exact absurd h hxs
        · exact ⟨hx, hxs⟩
    · rw [dedupFirstAux, if_neg h]
      constructor
      · intro hx
        rcases List.mem_cons.1 hx with rfl | hx
        · exact ⟨List.mem_cons_self _ _, h⟩
        · obtain ⟨h1, h2⟩ := (ih _).1 hx
          exact ⟨List.mem_cons_of_mem _ h1, fun hs => h2 (List.mem_cons_of_mem _ hs)⟩
      · rintro ⟨hx, hxs⟩
        by_cases hxy : x = y
        · subst hxy
          exact List.mem_cons_self _ _
        · rcases List.mem_cons.1 hx with rfl | hx
          · exact absurd rfl hxy
          · refine List.mem_cons_of_mem _ ((ih _).2 ⟨hx, ?_⟩)
            intro hs
            rcases List.mem_cons.1 hs with rfl | hs
            · exact hxy rfl
            · exact hxs hs

theorem nodup_dedupFirstAux {α : Type} [DecidableEq α] :
    ∀ (l seen : List α), (dedupFirstAux l seen).Nodup := by
  intro l
  induction l with
  | nil => intro seen; simp [dedupFirstAux]
  | cons y ys ih =>
    intro seen
    by_cases h : y ∈ seen
    · rw [dedupFirstAux, if_pos h]
      exact ih seen
    · rw [dedupFirstAux, if_neg h, List.nodup_cons]
      refine ⟨fun hy => ?_, ih _⟩
      exact ((mem_dedupFirstAux y ys _).1 hy).2 (List.mem_cons_self _ _)

theorem mem_dedupFirst {α : Type} [DecidableEq α] {x : α} {l : List α} :
    x ∈ dedupFirst l ↔ x ∈ l := by
  rw [dedupFirst, mem_dedupFirstAux]
  simp

theorem nodup_dedupFirst {α : Type} [DecidableEq α] (l : List α) :
    (dedupFirst l).Nodup :=
  nodup_dedupFirstAux l []

theorem dedupFirst_perm_dedup {α : Type} [DecidableEq α] (l : List α) :
    List.Perm (dedupFirst l) l.dedup := by
  rw [List.perm_ext_iff_of_nodup (nodup_dedupFirst l) (List.nodup_dedup l)]
  intro a
  rw [mem_dedupFirst, List.mem_dedup]

theorem sum_counter_counts {α : Type} [DecidableEq α] (l : List α) :
    ((counter l).map Prod.snd).sum = l.length := by
  have h1 : (counter l).map Prod.snd = (dedupFirst l).map (fun x => l.count x) := by
    rw [counter, List.map_map]
    rfl
  have h2 : List.Perm ((dedupFirst l).map (fun x => l.count x))
      (l.dedup.map (fun x => l.count x)) :=
    (dedupFirst_perm_dedup l).map _
  rw [h1, h2.sum_eq, List.sum_map_count_dedup_eq_length]

/-! ### Relative-frequency lemmas -/

theorem relFreqEntries_ok {total : Nat} (h : total ≠ 0) :
    ∀ l : List (List Char × Nat),
      relFreqEntries total l
        = .ok (l.map (fun e => (e.1, ((e.2 : Rat) / (total : Rat)) * 100))) := by
  intro l
  induction l with
  | nil => rfl
  | cons e rest ih =>
    obtain ⟨w, c⟩ := e
    rw [relFreqEntries, if_neg h, ih]
    rfl

theorem sum_percentages (t : Rat) :
    ∀ l : List (List Char × Nat),
      ((l.map (fun e => (e.1, ((e.2 : Rat) / t) * 100))).map Prod.snd).sum
        = (((l.map Prod.snd).sum : Nat) : Rat) / t * 100 := by
  intro l
  induction l with
  | nil => simp
  | cons e rest ih =>
    obtain ⟨w, c⟩ := e
    simp only [List.map_cons, List.sum_cons, ih]
    push_cast
    ring

/-! ### Sentence-splitting lemmas -/

theorem splitOnDelims_ne_nil : ∀ s : List Char, splitOnDelims s ≠ [] := by
  intro s
  induction s with
  | nil => simp [splitOnDelims]
  | cons c cs ih =>
    by_cases h : sentenceDelim c
    · simp [splitOnDelims, h]
    · rw [splitOnDelims, if_neg h]
      cases hcs : splitOnDelims cs with
      | nil => simp
      | cons p ps => simp

theorem splitOnDelims_cons_delim {d : Char} (hd : sentenceDelim d = true)
    (ys : List Char) : splitOnDelims (d :: ys) = [] :: splitOnDelims ys := by
  simp [splitOnDelims, hd]

theorem splitOnDelims_cons_nondelim {c : Char} (hc : ¬sentenceDelim c = true)
    {ys : List Char} {p : List Char} {ps : List (List Char)}
    (hys : splitOnDelims ys = p :: ps) :
    splitOnDelims (c :: ys) = (c :: p) :: ps := by
  simp [splitOnDelims, hc, hys]

theorem splitOnDelims_append_delim {d : Char} (hd : sentenceDelim d = true) :
    ∀ xs ys : List Char,
      splitOnDelims (xs ++ d :: ys) = splitOnDelims xs ++ splitOnDelims ys := by
  intro xs ys
  induction xs with
  | nil =>
    rw [List.nil_append, splitOnDelims_cons_delim hd]
    rfl
  | cons c cs ih =>
    by_cases h : sentenceDelim c
    · rw [List.cons_append, splitOnDelims_cons_delim h, ih, splitOnDelims_cons_delim h,
        List.cons_append]
    · cases hcs : splitOnDelims cs with
      | nil => exact absurd hcs (splitOnDelims_ne_nil cs)
      | cons p ps =>
        rw [List.cons_append,
          splitOnDelims_cons_nondelim h (hcs ▸ ih),
          splitOnDelims_cons_nondelim h hcs, List.cons_append]
        rfl

theorem sentenceCount_append_delim {d : Char} (hd : sentenceDelim d = true)
    (xs ys : List Char) :
    SentenceCountStrategy.analyze (xs ++ d :: ys)
      = SentenceCountStrategy.analyze xs + SentenceCountStrategy.analyze ys := by
  rw [SentenceCountStrategy.analyze, splitOnDelims_append_delim hd, List.filter_append,
    List.length_append]
  rfl

theorem sentenceCount_delim_cons {d : Char} (hd : sentenceDelim d = true)
    (ys : List Char) :
    SentenceCountStrategy.analyze (d :: ys) = SentenceCountStrategy.analyze ys := by
  rw [SentenceCountStrategy.analyze, splitOnDelims_cons_delim hd]
  rfl

/-! ### Seed-lowercasing lemma -/

theorem inflAnalyze_map_of_morph_eq (morph : List Char → List Char)
    (text : List Char) (seeds : List (List Char)) (g : List Char → List Char)
    (h : ∀ w, morph (g w) = morph w) :
    InflectionHighlightStrategy.analyze morph text (seeds.map g)
      = InflectionHighlightStrategy.analyze morph text seeds := by
  rw [InflectionHighlightStrategy.analyze, InflectionHighlightStrategy.analyze,
    List.foldl_map]
  have he : (fun (d : List (List Char × List (List Char))) (word : List Char) =>
        processSeed morph (findWords text) (morph (g word)) d)
      = (fun d word => processSeed morph (findWords text) (morph word) d) := by
    funext d word
    rw [h word]
  rw [he]

theorem length_filter_eq_one_of_nodup {α : Type} [DecidableEq α] {l : List α} {a : α}
    (hn : l.Nodup) (ha : a ∈ l) : (l.filter (fun x => x = a)).length = 1 := by
  induction l with
  | nil => simp at ha
  | cons x xs ih =>
    rw [List.nodup_cons] at hn
    rcases List.mem_cons.1 ha with rfl | ha2
    · have hnone : ∀ y ∈ xs, ¬(y = a) := fun y hy hxy => hn.1 (hxy ▸ hy)
      rw [List.filter_cons, if_pos (by simp), List.length_cons,
        List.filter_eq_nil_iff.2 (by simpa using hnone)]
      rfl
    · have hx : x ≠ a := fun hxa => hn.1 (hxa ▸ ha2)
      rw [List.filter_cons, if_neg (by simpa using hx)]
      exact ih hn.2 ha2

/-! ### Claims -/

/-- Claim C1: for every text and every seed sequence, `InflectionHighlightStrategy.analyze`
lemmatizes each seed word, scans the tokens of the text in order, and the group keyed by
a seed's lemma holds exactly the residual suffixes of the tokens whose lemma equals the
seed's lemma, in text order; tokens whose lemma differs contribute nothing to that group. -/
theorem C1_inflection_group_membership (morph : List Char → List Char)
    (text : List Char) (seeds : List (List Char)) (s : List Char) (hs : s ∈ seeds) :
    dictGet (morph s) (InflectionHighlightStrategy.analyze morph text seeds)
      = some ((findWords text).filterMap
          (fun w => if morph w = morph s then some (residualSuffix (morph s) w) else none)) :=
  dictGet_inflAnalyze morph text hs

theorem C1_witness :
    dictGet ((fun w : List Char => w.take 3) "run".data)
      (InflectionHighlightStrategy.analyze (fun w : List Char => w.take 3)
        "he runs and ran running".data ["run".data])
      = some ["s".data, "ning".data] := by
  rw [C1_inflection_group_membership (fun w : List Char => w.take 3)
    "he runs and ran running".data ["run".data] "run".data (by decide)]
  decide

/-- Claim C2: on a text with zero tokens, the relative-frequency strategy returns the
empty table: the dict comprehension iterates over no entries, so the division by the
zero token total is never executed and no error is surfaced. -/
theorem C2_relative_frequency_zero_tokens (text : List Char)
    (h : findWords text = []) :
    RelativeFrequencyStrategy.analyze text = Except.ok [] := by
  rw [RelativeFrequencyStrategy.analyze, h]
  rfl

theorem C2_witness : RelativeFrequencyStrategy.analyze "?!.".data = Except.ok [] :=
  C2_relative_frequency_zero_tokens "?!.".data (by decide)

/-- Claim C3 counterexample: the core `analyze` does not lowercase seed words before
lemmatizing them (the lowercasing in the original happens in the host
`show_inflections`, which lowercases the selected text before tokenizing it), so under
a case-sensitive lemmatizer (here the identity) the result for seed word "Run" differs
from the result for its lowercased form. -/
theorem C3_counterexample :
    InflectionHighlightStrategy.analyze (fun w => w) "run".data ["Run".data]
      ≠ InflectionHighlightStrategy.analyze (fun w => w) "run".data
          [lowerWord "Run".data] := by
  decide

/-- Claim C3 (amended): seed-word lowercasing is performed by the host before calling
the core, not by the core itself; the core produces the same result for a seed word
and its lowercased form exactly when the injected lemmatizer is itself insensitive to
that lowercasing, in which case lowercasing all seeds leaves the result unchanged. -/
theorem C3_amended_case_insensitive (morph : List Char → List Char)
    (text : List Char) (seeds : List (List Char))
    (h : ∀ w, morph (lowerWord w) = morph w) :
    InflectionHighlightStrategy.analyze morph text (seeds.map lowerWord)
      = InflectionHighlightStrategy.analyze morph text seeds :=
  inflAnalyze_map_of_morph_eq morph text seeds lowerWord h

theorem C3_witness :
    InflectionHighlightStrategy.analyze (fun _ => ['x']) "a b".data
        (["A".data].map lowerWord)
      = InflectionHighlightStrategy.analyze (fun _ => ['x']) "a b".data ["A".data] :=
  C3_amended_case_insensitive (fun _ => ['x']) "a b".data ["A".data] (fun _ => rfl)

/-- Claim C4: when two seed words lemmatize to the same lemma, the resulting map has
exactly one entry for that lemma; each seed's processing re-initializes the lemma's
sequence and recomputes the same scan, so the sequence stored is the scan for the last
such seed word (equal to the scan of the shared lemma over the text's tokens). -/
theorem C4_duplicate_seeds_collapse (morph : List Char → List Char) (text : List Char)
    (seeds : List (List Char)) (s1 s2 : List Char) (h1 : s1 ∈ seeds)
    (h2 : s2 ∈ seeds) (he : morph s1 = morph s2) :
    (((InflectionHighlightStrategy.analyze morph text seeds).map Prod.fst).filter
        (fun k => k = morph s2)).length = 1
    ∧ dictGet (morph s2) (InflectionHighlightStrategy.analyze morph text seeds)
        = some (suffixScan morph (findWords text) (morph s2)) := by
  have hget := dictGet_inflAnalyze morph text h2
  exact ⟨length_filter_eq_one_of_nodup (inflAnalyze_keys_nodup morph text seeds)
    (mem_keys_of_dictGet hget), hget⟩

theorem C4_witness :
    (((InflectionHighlightStrategy.analyze (fun w : List Char => w.take 3)
        "he runs ran".data ["runs".data, "running".data]).map Prod.fst).filter
        (fun k => k = (fun w : List Char => w.take 3) "running".data)).length = 1
    ∧ dictGet ((fun w : List Char => w.take 3) "running".data)
        (InflectionHighlightStrategy.analyze (fun w : List Char => w.take 3)
          "he runs ran".data ["runs".data, "running".data])
        = some (suffixScan (fun w : List Char => w.take 3)
            (findWords "he runs ran".data)
            ((fun w : List Char => w.take 3) "running".data)) :=
  C4_duplicate_seeds_collapse (fun w : List Char => w.take 3) "he runs ran".data
    ["runs".data, "running".data] "runs".data "running".data (by decide) (by decide)
    (by decide)

/-- Claim C5: for every text, the counts in the absolute-frequency table sum to the
number of tokens produced by tokenizing the text. -/
theorem C5_absolute_frequency_total (text : List Char) :
    ((AbsoluteFrequencyStrategy.analyze text).map Prod.snd).sum
      = (findWords text).length := by
  rw [AbsoluteFrequencyStrategy.analyze]
  exact sum_counter_counts (findWords text)

/-- Claim C6: for every text with at least one token, the relative-frequency table is
returned without error and its percentage values sum to exactly 100 over the
rationals. -/
theorem C6_relative_frequency_sum (text : List Char)
    (h : 1 ≤ (findWords text).length) :
    ∃ table, RelativeFrequencyStrategy.analyze text = Except.ok table
      ∧ (table.map Prod.snd).sum = 100 := by
  have h0 : (findWords text).length ≠ 0 := by omega
  refine ⟨_, by rw [RelativeFrequencyStrategy.analyze, relFreqEntries_ok h0], ?_⟩
  rw [sum_percentages, sum_counter_counts]
  have hq : ((findWords text).length : Rat) ≠ 0 := by exact_mod_cast h0
  rw [div_self hq, one_mul]

theorem C6_witness :
    1 ≤ (findWords "a b a".data).length
    ∧ ∃ table, RelativeFrequencyStrategy.analyze "a b a".data = Except.ok table
        ∧ (table.map Prod.snd).sum = 100 :=
  ⟨by decide, C6_relative_frequency_sum "a b a".data (by decide)⟩

/-- Claim C7: sentence counting splits the text on `.`, `!`, `?`, trims each piece,
and counts only pieces with non-empty trimmed content; consecutive delimiters produce
no extra counted segment, and the four concrete examples of the specification hold. -/
theorem C7_sentence_count :
    SentenceCountStrategy.analyze "".data = 0
    ∧ SentenceCountStrategy.analyze "Hello.".data = 1
    ∧ SentenceCountStrategy.analyze "Hello. World! How?".data = 3
    ∧ SentenceCountStrategy.analyze "Hello...".data = 1
    ∧ ∀ (pre post : List Char) (d : Char), sentenceDelim d = true →
        SentenceCountStrategy.analyze (pre ++ d :: d :: post)
          = SentenceCountStrategy.analyze (pre ++ d :: post) := by
  refine ⟨by decide, by decide, by decide, by decide, ?_⟩
  intro pre post d hd
  rw [sentenceCount_append_delim hd, sentenceCount_append_delim hd,
    sentenceCount_delim_cons hd]

theorem C7_witness :
    SentenceCountStrategy.analyze ("Hi".data ++ '.' :: '.' :: " Yo.".data)
      = SentenceCountStrategy.analyze ("Hi".data ++ '.' :: " Yo.".data) :=
  C7_sentence_count.2.2.2.2 "Hi".data " Yo.".data '.' (by decide)

/-- Claim C8: the empty text yields the empty/zero result for every strategy variant,
never an error; in particular the inflection strategy maps each seed word's lemma to
the empty sequence, and every entry of its result is such a lemma with an empty
sequence. -/
theorem C8_empty_text :
    AbsoluteFrequencyStrategy.analyze [] = []
    ∧ RelativeFrequencyStrategy.analyze [] = Except.ok []
    ∧ SentenceCountStrategy.analyze [] = 0
    ∧ UniqueWordsCountStrategy.analyze [] = 0
    ∧ (∀ (morph : List Char → List Char) (seeds : List (List Char)) (s : List Char),
        s ∈ seeds →
        dictGet (morph s) (InflectionHighlightStrategy.analyze morph [] seeds)
          = some [])
    ∧ (∀ (morph : List Char → List Char) (seeds : List (List Char))
        (e : List Char × List (List Char)),
        e ∈ InflectionHighlightStrategy.analyze morph [] seeds →
        e.2 = [] ∧ ∃ s ∈ seeds, morph s = e.1) := by
  refine ⟨rfl, rfl, rfl, rfl, ?_, ?_⟩
  · intro morph seeds s hs
    exact dictGet_inflAnalyze morph [] hs
  · intro morph seeds e he
    have hk : e.1 ∈ (InflectionHighlightStrategy.analyze morph [] seeds).map Prod.fst :=
      List.mem_map.2 ⟨e, he, rfl⟩
    obtain ⟨s, hs, hes⟩ := mem_keys_inflAnalyze morph [] hk
    have h1 := dictGet_inflAnalyze morph [] hs
    rw [hes] at h1
    have h2 : dictGet e.1 (InflectionHighlightStrategy.analyze morph [] seeds)
        = some e.2 :=
      dictGet_of_mem_nodup (inflAnalyze_keys_nodup morph [] seeds)
        (show (e.1, e.2) ∈ _ by rw [Prod.mk.eta]; exact he)
    rw [h1] at h2
    refine ⟨?_, s, hs, hes⟩
    rw [← Option.some_inj.1 h2]
    rfl

theorem C8_witness :
    dictGet ((fun w : List Char => w) ['a'])
      (InflectionHighlightStrategy.analyze (fun w : List Char => w) [] [['a']])
      = some [] :=
  C8_empty_text.2.2.2.2.1 (fun w => w) [['a']] ['a'] (by decide)

/-- Claim C9: the engine is pure dispatch: running the analyzer with a strategy
(whether constructed with it or set afterwards) returns exactly the result of the
strategy's own `analyze` on the same text and extra argument, unchanged. -/
theorem C9_engine_pure_dispatch (morph : List Char → List Char) (s : StrategyKind)
    (text : List Char) (extra : List (List Char)) :
    (TextAnalyzer.mk s).analyze morph text extra
      = StrategyKind.analyze morph s text extra
    ∧ ∀ a : TextAnalyzer, (a.set_strategy s).analyze morph text extra
        = StrategyKind.analyze morph s text extra :=
  ⟨rfl, fun _ => rfl⟩

/-- Claim C10: for a matched surface token no longer than the lemma, the residual
suffix computation does not fail: it yields the empty string, which is appended to the
group of that lemma. -/
theorem C10_short_token_empty_suffix (morph : List Char → List Char)
    (text : List Char) (seeds : List (List Char)) (s w : List Char) (hs : s ∈ seeds)
    (hw : w ∈ findWords text) (hm : morph w = morph s)
    (hlen : w.length ≤ (morph s).length) :
    residualSuffix (morph s) w = []
    ∧ ∃ v, dictGet (morph s) (InflectionHighlightStrategy.analyze morph text seeds)
        = some v ∧ [] ∈ v := by
  have hres : residualSuffix (morph s) w = [] := List.drop_eq_nil_iff.2 hlen
  refine ⟨hres, suffixScan morph (findWords text) (morph s),
    dictGet_inflAnalyze morph text hs, ?_⟩
  exact List.mem_filterMap.2 ⟨w, hw, by simp [hm, hres]⟩

theorem C10_witness :
    residualSuffix ((fun w : List Char => w ++ ['a']) "run".data) "run".data = []
    ∧ ∃ v, dictGet ((fun w : List Char => w ++ ['a']) "run".data)
        (InflectionHighlightStrategy.analyze (fun w : List Char => w ++ ['a'])
          "run".data ["run".data]) = some v ∧ [] ∈ v :=
  C10_short_token_empty_suffix (fun w : List Char => w ++ ['a']) "run".data
    ["run".data] "run".data "run".data (by decide) (by decide) (by decide) (by decide)
